import Mathlib

/-!
# Verification of the War card game simulation

A shallow embedding of `src/sim.rs`: a two-player War-family card game with a
configurable war depth `k` and an "honor threshold" under which a narrowly
losing card is removed from the game.

Ranks are bytes in the source (`u8`); they are embedded as `Nat` values.
The pseudo-random generator is embedded as an abstract state type `σ` together
with a shuffle function `shuf : σ → List Nat → List Nat × σ`; lemmas that
depend on the generator behaving like a shuffle assume it preserves the length
of the shuffled list.  The Rust `Vec` draw pile pops from the back, so `draw`
removes the last element of the embedded list.  The two unbounded `loop`s of
the source (`play_round` and `play`) are embedded with an explicit fuel
parameter; for `play_round` the fuel `cards₁ + cards₂ + 1` is proved
sufficient.
-/

inductive Player : Type
  | Player1
  | Player2
deriving Repr, DecidableEq

/-- The winner of a game. The game may draw if both players flip their last
card in a war. -/
inductive GameResult : Type
  | Player1
  | Player2
  | Draw
deriving Repr, DecidableEq

/-- The winner of an individual round, which may consist of one or more wars. -/
inductive RoundResult : Type
  | GameResult (r : GameResult)
  | RoundWin (p : Player)
deriving Repr, DecidableEq

/-- The cards owned by one player: a draw pile and a discard pile. -/
structure PlayerDeck : Type where
  deck : List Nat
  discard : List Nat
deriving Repr, DecidableEq

def PlayerDeck.new (deck : List Nat) : PlayerDeck :=
  { deck := [], discard := deck }

/-- Total remaining card count (`PlayerDeck::cards`). -/
def PlayerDeck.cards (p : PlayerDeck) : Nat :=
  p.deck.length + p.discard.length

/-- `Vec::pop` on the draw pile: remove and return the last element. -/
def drawPop {σ : Type} (ps : PlayerDeck × σ) : Option Nat × PlayerDeck × σ :=
  match ps.1.deck.getLast? with
  | none => (none, ps.1, ps.2)
  | some c => (some c, { deck := ps.1.deck.dropLast, discard := ps.1.discard }, ps.2)

/-- `PlayerDeck::draw`: when the draw pile is empty, shuffle the discard pile
and swap it in (discard becomes empty); then pop the top of the draw pile. -/
def PlayerDeck.draw {σ : Type} (shuf : σ → List Nat → List Nat × σ)
    (p : PlayerDeck) (s : σ) : Option Nat × PlayerDeck × σ :=
  drawPop
    (if p.deck.isEmpty then
      ({ deck := (shuf s p.discard).1, discard := [] }, (shuf s p.discard).2)
    else (p, s))

/-- `PlayerDeck::win_loot`: append the won cards to the discard pile. -/
def PlayerDeck.win_loot (p : PlayerDeck) (cards : List Nat) : PlayerDeck :=
  { p with discard := p.discard ++ cards }

/-- Game parameters: war depth `k` and the honor threshold. -/
structure Params : Type where
  k : Nat
  honor_threshold : Nat
deriving Repr, DecidableEq

/-- `u8::abs_diff` on the embedded ranks. -/
def abs_diff (a b : Nat) : Nat := max a b - min a b

/-- The honor-rule update of the wager buffer at one face-off comparison
(`play_round` lines 115-121): a narrow, non-tied loss removes the lower card
from the game and appends only the higher card; otherwise both cards are
appended. -/
def honorExtend (honor_threshold : Nat) (work : List Nat) (card1 card2 : Nat) :
    List Nat :=
  if card1 ≠ card2 ∧ abs_diff card1 card2 ≤ honor_threshold then
    work ++ [max card1 card2]
  else
    work ++ [card1, card2]

/-- `n` consecutive draws, each of which must succeed (the `.unwrap()` calls of
the war-escalation loop); `none` models the unwrap panic. -/
def drawN {σ : Type} (shuf : σ → List Nat → List Nat × σ) :
    Nat → PlayerDeck → σ → Option (List Nat × PlayerDeck × σ)
  | 0, p, s => some ([], p, s)
  | n + 1, p, s =>
    match p.draw shuf s with
    | (none, _, _) => none
    | (some c, p', s') =>
      match drawN shuf n p' s' with
      | none => none
      | some (cs, p'', s'') => some (c :: cs, p'', s'')

/-- The two abnormal exits of the embedded `play_round` loop: running out of
fuel, and a failed `.unwrap()` on a war-escalation draw. -/
inductive RoundErr : Type
  | fuelOut
  | drawFail
deriving Repr, DecidableEq

abbrev RState (σ : Type) :=
  RoundResult × PlayerDeck × PlayerDeck × List Nat × σ

/-- One iteration of the `play_round` loop body; `recur` is the jump back to
the top of the loop after a war escalation. -/
def playRoundStep {σ : Type} (shuf : σ → List Nat → List Nat × σ)
    (k honor_threshold : Nat)
    (recur : PlayerDeck → PlayerDeck → List Nat → σ → Except RoundErr (RState σ))
    (p1 p2 : PlayerDeck) (work : List Nat) (s : σ) : Except RoundErr (RState σ) :=
  match p1.draw shuf s with
  | (o1, q1, s1) =>
    match p2.draw shuf s1 with
    | (o2, q2, s2) =>
      match o1, o2 with
      | none, none => .ok (.GameResult .Draw, q1, q2, work, s2)
      | none, some _ => .ok (.GameResult .Player2, q1, q2, work, s2)
      | some _, none => .ok (.GameResult .Player1, q1, q2, work, s2)
      | some card1, some card2 =>
        let work' := honorExtend honor_threshold work card1 card2
        if card2 < card1 then .ok (.RoundWin .Player1, q1, q2, work', s2)
        else if card1 < card2 then .ok (.RoundWin .Player2, q1, q2, work', s2)
        else
          match drawN shuf (min (q1.cards - 1) k) q1 s2 with
          | none => .error .drawFail
          | some (cs1, r1, s3) =>
            match drawN shuf (min (q2.cards - 1) k) q2 s3 with
            | none => .error .drawFail
            | some (cs2, r2, s4) =>
              recur r1 r2 ((work' ++ cs1) ++ cs2) s4

/-- `Game::play_round`, with fuel bounding the number of loop iterations. -/
def playRoundAux {σ : Type} (shuf : σ → List Nat → List Nat × σ)
    (k honor_threshold : Nat) :
    Nat → PlayerDeck → PlayerDeck → List Nat → σ → Except RoundErr (RState σ)
  | 0, _, _, _, _ => .error .fuelOut
  | fuel + 1, p1, p2, work, s =>
    playRoundStep shuf k honor_threshold
      (playRoundAux shuf k honor_threshold fuel) p1 p2 work s

/-- The full game state (`struct Game`). -/
structure Game (σ : Type) : Type where
  params : Params
  rng : σ
  player1 : PlayerDeck
  player2 : PlayerDeck
  work : List Nat
deriving Repr, DecidableEq

/-- `Game::play_round` on a game state: the work buffer is cleared on entry,
and `cards₁ + cards₂ + 1` loop iterations are provably enough. -/
def playRound {σ : Type} (shuf : σ → List Nat → List Nat × σ) (g : Game σ) :
    Except RoundErr (RoundResult × Game σ) :=
  match playRoundAux shuf g.params.k g.params.honor_threshold
      (g.player1.cards + g.player2.cards + 1) g.player1 g.player2 [] g.rng with
  | .error e => .error e
  | .ok (r, p1, p2, w, s) =>
    .ok (r, { params := g.params, rng := s, player1 := p1, player2 := p2, work := w })

/-- The `Game::play` loop with fuel: `.ok none` means the fuel ran out, and
`.ok (some ((result, turns), g))` is the returned pair together with the final
game state. -/
def playAux {σ : Type} (shuf : σ → List Nat → List Nat × σ) :
    Nat → Game σ → Nat → Except RoundErr (Option ((GameResult × Nat) × Game σ))
  | 0, _, _ => .ok none
  | fuel + 1, g, turn =>
    match playRound shuf g with
    | .error e => .error e
    | .ok (.RoundWin .Player1, g') =>
      playAux shuf fuel { g' with player1 := g'.player1.win_loot g'.work } (turn + 1)
    | .ok (.RoundWin .Player2, g') =>
      playAux shuf fuel { g' with player2 := g'.player2.win_loot g'.work } (turn + 1)
    | .ok (.GameResult r, g') => .ok (some ((r, turn + 1), g'))

/-- `Game::play`: the turn counter starts at 0 and is incremented at the top of
every loop iteration. -/
def play {σ : Type} (shuf : σ → List Nat → List Nat × σ) (fuel : Nat)
    (g : Game σ) : Except RoundErr (Option ((GameResult × Nat) × Game σ)) :=
  playAux shuf fuel g 0

/-- The identity shuffle, a degenerate but length-preserving generator used to
evaluate concrete runs. -/
def idShuf : Unit → List Nat → List Nat × Unit := fun s l => (l, s)

/-! ## Instrumented round resolution

`playRoundStepC`/`playRoundAuxC` mirror `playRoundStep`/`playRoundAux` exactly
but additionally thread a counter of the face-off comparisons at which the
honor rule fired; `eraseC` forgets the counter. -/

abbrev RStateC (σ : Type) :=
  RoundResult × PlayerDeck × PlayerDeck × List Nat × σ × Nat

def playRoundStepC {σ : Type} (shuf : σ → List Nat → List Nat × σ)
    (k honor_threshold : Nat)
    (recur : PlayerDeck → PlayerDeck → List Nat → σ → Nat →
      Except RoundErr (RStateC σ))
    (p1 p2 : PlayerDeck) (work : List Nat) (s : σ) (hc : Nat) :
    Except RoundErr (RStateC σ) :=
  match p1.draw shuf s with
  | (o1, q1, s1) =>
    match p2.draw shuf s1 with
    | (o2, q2, s2) =>
      match o1, o2 with
      | none, none => .ok (.GameResult .Draw, q1, q2, work, s2, hc)
      | none, some _ => .ok (.GameResult .Player2, q1, q2, work, s2, hc)
      | some _, none => .ok (.GameResult .Player1, q1, q2, work, s2, hc)
      | some card1, some card2 =>
        let work' := honorExtend honor_threshold work card1 card2
        let hc' := hc +
          (if card1 ≠ card2 ∧ abs_diff card1 card2 ≤ honor_threshold then 1 else 0)
        if card2 < card1 then .ok (.RoundWin .Player1, q1, q2, work', s2, hc')
        else if card1 < card2 then .ok (.RoundWin .Player2, q1, q2, work', s2, hc')
        else
          match drawN shuf (min (q1.cards - 1) k) q1 s2 with
          | none => .error .drawFail
          | some (cs1, r1, s3) =>
            match drawN shuf (min (q2.cards - 1) k) q2 s3 with
            | none => .error .drawFail
            | some (cs2, r2, s4) =>
              recur r1 r2 ((work' ++ cs1) ++ cs2) s4 hc'

def playRoundAuxC {σ : Type} (shuf : σ → List Nat → List Nat × σ)
    (k honor_threshold : Nat) :
    Nat → PlayerDeck → PlayerDeck → List Nat → σ → Nat →
      Except RoundErr (RStateC σ)
  | 0, _, _, _, _, _ => .error .fuelOut
  | fuel + 1, p1, p2, work, s, hc =>
    playRoundStepC shuf k honor_threshold
      (playRoundAuxC shuf k honor_threshold fuel) p1 p2 work s hc

def eraseC {σ : Type} : Except RoundErr (RStateC σ) → Except RoundErr (RState σ)
  | .error e => .error e
  | .ok (r, p1, p2, w, s, _) => .ok (r, p1, p2, w, s)

/-- The number of cards silently dropped at a terminal face-off: when exactly
one player draws a card and the other has none, the drawn card is bound by the
match but never stored anywhere, so it leaves the game. -/
def termDrop : RoundResult → Nat
  | .GameResult .Player1 => 1
  | .GameResult .Player2 => 1
  | .GameResult .Draw => 0
  | .RoundWin _ => 0


example : PlayerDeck.draw idShuf (PlayerDeck.new [1, 2, 3]) () =
    (some 3, { deck := [1, 2], discard := [] }, ()) := rfl

example : playRoundAux idShuf 3 0 3 (PlayerDeck.new [5]) (PlayerDeck.new [3]) [] () =
    .ok (.RoundWin .Player1, ⟨[], []⟩, ⟨[], []⟩, [5, 3], ()) := rfl

/-! ## Basic lemmas about drawing -/

theorem drawPop_deck_nil {σ : Type} (disc : List Nat) (s : σ) :
    drawPop (⟨⟨[], disc⟩, s⟩ : PlayerDeck × σ) = (none, ⟨[], disc⟩, s) := rfl

theorem drawPop_deck_ne_nil {σ : Type} (d disc : List Nat) (hd : d ≠ []) (s : σ) :
    drawPop (⟨⟨d, disc⟩, s⟩ : PlayerDeck × σ) =
      (some (d.getLast hd), ⟨d.dropLast, disc⟩, s) := by
  simp only [drawPop, List.getLast?_eq_getLast d hd]

theorem draw_deck_nil {σ : Type} (shuf : σ → List Nat → List Nat × σ)
    (disc : List Nat) (s : σ) :
    PlayerDeck.draw shuf ⟨[], disc⟩ s =
      drawPop (⟨⟨(shuf s disc).1, []⟩, (shuf s disc).2⟩ : PlayerDeck × σ) := by
  simp [PlayerDeck.draw]

theorem draw_deck_ne_nil {σ : Type} (shuf : σ → List Nat → List Nat × σ)
    (d disc : List Nat) (hd : d ≠ []) (s : σ) :
    PlayerDeck.draw shuf ⟨d, disc⟩ s =
      (some (d.getLast hd), ⟨d.dropLast, disc⟩, s) := by
  rw [PlayerDeck.draw, if_neg (by simpa using hd)]
  exact drawPop_deck_ne_nil d disc hd s

/-- Characterisation of one `draw`: it returns `none` exactly when the player
has zero cards, a successful draw removes exactly one card, a failed draw
leaves the player at zero cards, and a draw from an empty draw pile leaves the
discard pile empty. -/
theorem draw_spec {σ : Type} (shuf : σ → List Nat → List Nat × σ)
    (Hlen : ∀ s l, ((shuf s l).1).length = l.length)
    (p : PlayerDeck) (s : σ) :
    ((p.draw shuf s).1 = none ↔ p.cards = 0) ∧
    ((p.draw shuf s).1 = none → (p.draw shuf s).2.1.cards = 0) ∧
    ((p.draw shuf s).1.isSome → (p.draw shuf s).2.1.cards + 1 = p.cards) ∧
    (p.deck = [] → (p.draw shuf s).2.1.discard = []) := by
  obtain ⟨d, disc⟩ := p
  rcases hd : d with _ | ⟨x, xs⟩
  · have hlen : ((shuf s disc).1).length = disc.length := Hlen s disc
    rw [draw_deck_nil]
    rcases hL : (shuf s disc).1 with _ | ⟨y, ys⟩
    · have hdisc : disc.length = 0 := by rw [← hlen, hL]; rfl
      rw [drawPop_deck_nil]
      simp [PlayerDeck.cards, hdisc]
    · have hne : (y :: ys : List Nat) ≠ [] := by simp
      rw [drawPop_deck_ne_nil _ _ hne]
      have hdisc : disc.length = ys.length + 1 := by
        rw [← hlen, hL]; rfl
      refine ⟨?_, by simp, ?_, by simp⟩
      · simp [PlayerDeck.cards, hdisc]
      · intro _
        simp only [PlayerDeck.cards]
        simp [List.length_dropLast]
        omega
  · have hne : (x :: xs : List Nat) ≠ [] := by simp
    rw [draw_deck_ne_nil shuf (x :: xs) disc hne]
    refine ⟨?_, by simp, ?_, by simp⟩
    · simp only [PlayerDeck.cards]
      simp
    · intro _
      simp only [PlayerDeck.cards]
      simp [List.length_dropLast]
      omega

/-- `n` war-escalation draws succeed whenever the player holds at least `n`
cards; they produce exactly `n` cards and remove exactly `n` from the player. -/
theorem drawN_spec {σ : Type} (shuf : σ → List Nat → List Nat × σ)
    (Hlen : ∀ s l, ((shuf s l).1).length = l.length) :
    ∀ (n : Nat) (p : PlayerDeck) (s : σ), n ≤ p.cards →
      ∃ cs q s', drawN shuf n p s = some (cs, q, s') ∧
        cs.length = n ∧ q.cards + n = p.cards := by
  intro n
  induction n with
  | zero => exact fun p s _ => ⟨[], p, s, rfl, rfl, by simp⟩
  | succ n ih =>
    intro p s h
    have hs := draw_spec shuf Hlen p s
    rcases hdr : p.draw shuf s with ⟨o, q, s'⟩
    rw [hdr] at hs
    rcases o with _ | c
    · exact absurd (hs.1.mp rfl) (by omega)
    · have hq : q.cards + 1 = p.cards := hs.2.2.1 (by simp)
      obtain ⟨cs, q', s'', hrec, hlen2, hcards⟩ := ih q s' (by omega)
      refine ⟨c :: cs, q', s'', ?_, by simp [hlen2], by omega⟩
      simp only [drawN, hdr]
      rw [hrec]

theorem abs_diff_eq_zero (a b : Nat) : abs_diff a b = 0 ↔ a = b := by
  simp only [abs_diff]
  rcases Nat.le_total a b with h | h
  · rw [max_eq_right h, min_eq_left h]; omega
  · rw [max_eq_left h, min_eq_right h]; omega

theorem honorExtend_length (honor_threshold : Nat) (work : List Nat)
    (card1 card2 : Nat) :
    (honorExtend honor_threshold work card1 card2).length =
      work.length +
        (if card1 ≠ card2 ∧ abs_diff card1 card2 ≤ honor_threshold then 1 else 2) := by
  simp only [honorExtend]
  split <;> simp

theorem win_loot_cards (p : PlayerDeck) (cs : List Nat) :
    (p.win_loot cs).cards = p.cards + cs.length := by
  obtain ⟨d, disc⟩ := p
  simp only [PlayerDeck.win_loot, PlayerDeck.cards, List.length_append]
  omega

/-! ## Round resolution lemmas -/

/-- The `drawFail` branch of the embedded `play_round` loop is unreachable for
a length-preserving shuffle, whatever the fuel: the war-escalation cap
`min (cards - 1) k` never exceeds the player's card count. -/
theorem playRoundAux_ne_drawFail {σ : Type} (shuf : σ → List Nat → List Nat × σ)
    (Hlen : ∀ s l, ((shuf s l).1).length = l.length) (k ht : Nat) :
    ∀ (fuel : Nat) (p1 p2 : PlayerDeck) (w : List Nat) (s : σ),
      playRoundAux shuf k ht fuel p1 p2 w s ≠ .error .drawFail := by
  intro fuel
  induction fuel with
  | zero => intro p1 p2 w s; simp [playRoundAux]
  | succ fuel ih =>
    intro p1 p2 w s
    rcases hd1 : p1.draw shuf s with ⟨o1, q1, s1⟩
    rcases hd2 : p2.draw shuf s1 with ⟨o2, q2, s2⟩
    rcases o1 with _ | c1 <;> rcases o2 with _ | c2 <;>
      simp only [playRoundAux, playRoundStep, hd1, hd2]
    · simp
    · simp
    · simp
    · by_cases h12 : c2 < c1
      · simp [h12]
      · by_cases h21 : c1 < c2
        · simp [h12, h21]
        · simp only [h12, h21, if_false]
          obtain ⟨cs1, r1, s3, hdn1, hl1, hc1⟩ :=
            drawN_spec shuf Hlen (min (q1.cards - 1) k) q1 s2
              (le_trans (Nat.min_le_left _ _) (Nat.sub_le _ _))
          obtain ⟨cs2, r2, s4, hdn2, hl2, hc2⟩ :=
            drawN_spec shuf Hlen (min (q2.cards - 1) k) q2 s3
              (le_trans (Nat.min_le_left _ _) (Nat.sub_le _ _))
          simp only [hdn1, hdn2]
          exact ih r1 r2 _ s4

/-- With fuel exceeding the combined card count, the embedded `play_round`
loop returns a result: every war iteration removes at least two cards from
play, so the loop makes fewer than `cards₁ + cards₂ + 1` iterations. -/
theorem playRoundAux_ok {σ : Type} (shuf : σ → List Nat → List Nat × σ)
    (Hlen : ∀ s l, ((shuf s l).1).length = l.length) (k ht : Nat) :
    ∀ (fuel : Nat) (p1 p2 : PlayerDeck) (w : List Nat) (s : σ),
      p1.cards + p2.cards < fuel →
      ∃ out, playRoundAux shuf k ht fuel p1 p2 w s = .ok out := by
  intro fuel
  induction fuel with
  | zero => intro p1 p2 w s h; omega
  | succ fuel ih =>
    intro p1 p2 w s hfuel
    have hs1 := draw_spec shuf Hlen p1 s
    rcases hd1 : p1.draw shuf s with ⟨o1, q1, s1⟩
    rw [hd1] at hs1
    have hs2 := draw_spec shuf Hlen p2 s1
    rcases hd2 : p2.draw shuf s1 with ⟨o2, q2, s2⟩
    rw [hd2] at hs2
    rcases o1 with _ | c1 <;> rcases o2 with _ | c2 <;>
      simp only [playRoundAux, playRoundStep, hd1, hd2]
    · exact ⟨_, rfl⟩
    · exact ⟨_, rfl⟩
    · exact ⟨_, rfl⟩
    · by_cases h12 : c2 < c1
      · simp only [h12, if_true]; exact ⟨_, rfl⟩
      · by_cases h21 : c1 < c2
        · simp only [h12, h21, if_false, if_true]; exact ⟨_, rfl⟩
        · simp only [h12, h21, if_false]
          have hq1 : q1.cards + 1 = p1.cards := hs1.2.2.1 (by simp)
          have hq2 : q2.cards + 1 = p2.cards := hs2.2.2.1 (by simp)
          obtain ⟨cs1, r1, s3, hdn1, hl1, hc1⟩ :=
            drawN_spec shuf Hlen (min (q1.cards - 1) k) q1 s2
              (le_trans (Nat.min_le_left _ _) (Nat.sub_le _ _))
          obtain ⟨cs2, r2, s4, hdn2, hl2, hc2⟩ :=
            drawN_spec shuf Hlen (min (q2.cards - 1) k) q2 s3
              (le_trans (Nat.min_le_left _ _) (Nat.sub_le _ _))
          simp only [hdn1, hdn2]
          exact ih r1 r2 _ s4 (by omega)

/-- Forgetting the honor counter turns the instrumented round resolution into
the plain one: the two computations agree step for step. -/
theorem playRoundAuxC_erase {σ : Type} (shuf : σ → List Nat → List Nat × σ)
    (k ht : Nat) :
    ∀ (fuel : Nat) (p1 p2 : PlayerDeck) (w : List Nat) (s : σ) (hc : Nat),
      eraseC (playRoundAuxC shuf k ht fuel p1 p2 w s hc) =
        playRoundAux shuf k ht fuel p1 p2 w s := by
  intro fuel
  induction fuel with
  | zero => intro p1 p2 w s hc; rfl
  | succ fuel ih =>
    intro p1 p2 w s hc
    rcases hd1 : p1.draw shuf s with ⟨o1, q1, s1⟩
    rcases hd2 : p2.draw shuf s1 with ⟨o2, q2, s2⟩
    rcases o1 with _ | c1 <;> rcases o2 with _ | c2 <;>
      simp only [playRoundAuxC, playRoundStepC, playRoundAux, playRoundStep, hd1, hd2]
    · rfl
    · rfl
    · rfl
    · by_cases h12 : c2 < c1
      · simp [h12, eraseC]
      · by_cases h21 : c1 < c2
        · simp [h12, h21, eraseC]
        · simp only [h12, h21, if_false]
          rcases hdn1 : drawN shuf (min (q1.cards - 1) k) q1 s2 with _ | ⟨cs1, r1, s3⟩
          · simp only [hdn1]; rfl
          · simp only [hdn1]
            rcases hdn2 : drawN shuf (min (q2.cards - 1) k) q2 s3 with _ | ⟨cs2, r2, s4⟩
            · simp only [hdn2]; rfl
            · simp only [hdn2]
              exact ih r1 r2 _ s4 _

/-- With `honor_threshold = 0` the honor counter never moves: the honor
condition requires two distinct cards whose absolute difference is `≤ 0`. -/
theorem playRoundAuxC_hc_ht0 {σ : Type} (shuf : σ → List Nat → List Nat × σ)
    (k : Nat) :
    ∀ (fuel : Nat) (p1 p2 : PlayerDeck) (w : List Nat) (s : σ) (hc : Nat)
      (r : RoundResult) (p1' p2' : PlayerDeck) (w' : List Nat) (s' : σ) (hc' : Nat),
      playRoundAuxC shuf k 0 fuel p1 p2 w s hc = .ok (r, p1', p2', w', s', hc') →
      hc' = hc := by
  intro fuel
  induction fuel with
  | zero =>
    intro p1 p2 w s hc r p1' p2' w' s' hc' h
    simp [playRoundAuxC] at h
  | succ fuel ih =>
    intro p1 p2 w s hc r p1' p2' w' s' hc' h
    rcases hd1 : p1.draw shuf s with ⟨o1, q1, s1⟩
    rcases hd2 : p2.draw shuf s1 with ⟨o2, q2, s2⟩
    rcases o1 with _ | c1 <;> rcases o2 with _ | c2 <;>
      simp only [playRoundAuxC, playRoundStepC, hd1, hd2, Except.ok.injEq,
        Prod.mk.injEq] at h
    · exact h.2.2.2.2.2.symm
    · exact h.2.2.2.2.2.symm
    · exact h.2.2.2.2.2.symm
    · have hcond : ¬(c1 ≠ c2 ∧ abs_diff c1 c2 ≤ 0) := by
        rintro ⟨hne, hle⟩
        exact hne ((abs_diff_eq_zero c1 c2).mp (Nat.le_zero.mp hle))
      by_cases h12 : c2 < c1
      · simp only [h12, if_true, hcond, if_false, Except.ok.injEq,
          Prod.mk.injEq] at h
        omega
      · by_cases h21 : c1 < c2
        · simp only [h12, h21, if_false, if_true, hcond, Except.ok.injEq,
            Prod.mk.injEq] at h
          omega
        · simp only [h12, h21, if_false, hcond] at h
          rcases hdn1 : drawN shuf (min (q1.cards - 1) k) q1 s2 with _ | ⟨cs1, r1, s3⟩
          · simp only [hdn1] at h; exact absurd h (by simp)
          · simp only [hdn1] at h
            rcases hdn2 : drawN shuf (min (q2.cards - 1) k) q2 s3 with _ | ⟨cs2, r2, s4⟩
            · simp only [hdn2] at h; exact absurd h (by simp)
            · simp only [hdn2] at h
              have := ih _ _ _ _ _ _ _ _ _ _ _ h
              omega

/-- Card accounting across one whole (instrumented) round resolution: final
cards in hand, plus the wager buffer, plus one card silently dropped at a
`Player1`/`Player2` terminal face-off, plus one card permanently removed per
honor-triggered comparison, equals the initial cards in hand plus the initial
buffer. -/
theorem playRoundAuxC_conserve {σ : Type} (shuf : σ → List Nat → List Nat × σ)
    (Hlen : ∀ s l, ((shuf s l).1).length = l.length) (k ht : Nat) :
    ∀ (fuel : Nat) (p1 p2 : PlayerDeck) (w : List Nat) (s : σ) (hc : Nat)
      (r : RoundResult) (p1' p2' : PlayerDeck) (w' : List Nat) (s' : σ) (hc' : Nat),
      playRoundAuxC shuf k ht fuel p1 p2 w s hc = .ok (r, p1', p2', w', s', hc') →
      p1'.cards + p2'.cards + w'.length + termDrop r + hc' =
        p1.cards + p2.cards + w.length + hc := by
  intro fuel
  induction fuel with
  | zero =>
    intro p1 p2 w s hc r p1' p2' w' s' hc' h
    simp [playRoundAuxC] at h
  | succ fuel ih =>
    intro p1 p2 w s hc r p1' p2' w' s' hc' h
    have hs1 := draw_spec shuf Hlen p1 s
    rcases hd1 : p1.draw shuf s with ⟨o1, q1, s1⟩
    rw [hd1] at hs1
    have hs2 := draw_spec shuf Hlen p2 s1
    rcases hd2 : p2.draw shuf s1 with ⟨o2, q2, s2⟩
    rw [hd2] at hs2
    rcases o1 with _ | c1 <;> rcases o2 with _ | c2
    · simp only [playRoundAuxC, playRoundStepC, hd1, hd2, Except.ok.injEq,
        Prod.mk.injEq] at h
      obtain ⟨rfl, rfl, rfl, rfl, rfl, rfl⟩ := h
      have e1 : p1.cards = 0 := hs1.1.mp rfl
      have e2 : p2.cards = 0 := hs2.1.mp rfl
      have f1 : q1.cards = 0 := hs1.2.1 rfl
      have f2 : q2.cards = 0 := hs2.2.1 rfl
      simp only [termDrop]
      omega
    · simp only [playRoundAuxC, playRoundStepC, hd1, hd2, Except.ok.injEq,
        Prod.mk.injEq] at h
      obtain ⟨rfl, rfl, rfl, rfl, rfl, rfl⟩ := h
      have e1 : p1.cards = 0 := hs1.1.mp rfl
      have f1 : q1.cards = 0 := hs1.2.1 rfl
      have f2 : q2.cards + 1 = p2.cards := hs2.2.2.1 (by simp)
      simp only [termDrop]
      omega
    · simp only [playRoundAuxC, playRoundStepC, hd1, hd2, Except.ok.injEq,
        Prod.mk.injEq] at h
      obtain ⟨rfl, rfl, rfl, rfl, rfl, rfl⟩ := h
      have e2 : p2.cards = 0 := hs2.1.mp rfl
      have f1 : q1.cards + 1 = p1.cards := hs1.2.2.1 (by simp)
      have f2 : q2.cards = 0 := hs2.2.1 rfl
      simp only [termDrop]
      omega
    · have f1 : q1.cards + 1 = p1.cards := hs1.2.2.1 (by simp)
      have f2 : q2.cards + 1 = p2.cards := hs2.2.2.1 (by simp)
      by_cases h12 : c2 < c1
      · simp only [playRoundAuxC, playRoundStepC, hd1, hd2, h12, if_true,
          Except.ok.injEq, Prod.mk.injEq] at h
        obtain ⟨rfl, rfl, rfl, rfl, rfl, rfl⟩ := h
        have hne : ¬ c1 = c2 := by omega
        rw [honorExtend_length]
        by_cases hh : abs_diff c1 c2 ≤ ht <;>
          simp only [termDrop, hne, hh, ne_eq, not_false_iff, true_and,
            if_true, if_false, not_true, false_and] <;> omega
      · by_cases h21 : c1 < c2
        · simp only [playRoundAuxC, playRoundStepC, hd1, hd2, h12, h21,
            if_false, if_true, Except.ok.injEq, Prod.mk.injEq] at h
          obtain ⟨rfl, rfl, rfl, rfl, rfl, rfl⟩ := h
          have hne : ¬ c1 = c2 := by omega
          rw [honorExtend_length]
          by_cases hh : abs_diff c1 c2 ≤ ht <;>
            simp only [termDrop, hne, hh, ne_eq, not_false_iff, true_and,
              if_true, if_false, not_true, false_and] <;> omega
        · have hceq : c1 = c2 := by omega
          obtain ⟨cs1, r1, s3, hdn1, hl1, hc1⟩ :=
            drawN_spec shuf Hlen (min (q1.cards - 1) k) q1 s2
              (le_trans (Nat.min_le_left _ _) (Nat.sub_le _ _))
          obtain ⟨cs2, r2, s4, hdn2, hl2, hc2⟩ :=
            drawN_spec shuf Hlen (min (q2.cards - 1) k) q2 s3
              (le_trans (Nat.min_le_left _ _) (Nat.sub_le _ _))
          simp only [playRoundAuxC, playRoundStepC, hd1, hd2, h12, h21,
            if_false, hdn1, hdn2] at h
          have := ih _ _ _ _ _ _ _ _ _ _ _ h
          rw [List.length_append, List.length_append, honorExtend_length] at this
          subst hceq
          simp only [ne_eq, not_true, false_and, if_false] at this
          omega

/-- The wager buffer only grows across the iterations of one round, and a
decisive round adds at least one card (the winning face-off card) to it. -/
theorem playRoundAux_work_len {σ : Type} (shuf : σ → List Nat → List Nat × σ)
    (k ht : Nat) :
    ∀ (fuel : Nat) (p1 p2 : PlayerDeck) (w : List Nat) (s : σ)
      (r : RoundResult) (p1' p2' : PlayerDeck) (w' : List Nat) (s' : σ),
      playRoundAux shuf k ht fuel p1 p2 w s = .ok (r, p1', p2', w', s') →
      w.length ≤ w'.length ∧
        ∀ pl, r = .RoundWin pl → w.length + 1 ≤ w'.length := by
  intro fuel
  induction fuel with
  | zero =>
    intro p1 p2 w s r p1' p2' w' s' h
    simp [playRoundAux] at h
  | succ fuel ih =>
    intro p1 p2 w s r p1' p2' w' s' h
    rcases hd1 : p1.draw shuf s with ⟨o1, q1, s1⟩
    rcases hd2 : p2.draw shuf s1 with ⟨o2, q2, s2⟩
    rcases o1 with _ | c1 <;> rcases o2 with _ | c2 <;>
      simp only [playRoundAux, playRoundStep, hd1, hd2, Except.ok.injEq,
        Prod.mk.injEq] at h
    · obtain ⟨rfl, rfl, rfl, rfl, rfl⟩ := h
      exact ⟨le_refl _, fun pl hpl => by cases hpl⟩
    · obtain ⟨rfl, rfl, rfl, rfl, rfl⟩ := h
      exact ⟨le_refl _, fun pl hpl => by cases hpl⟩
    · obtain ⟨rfl, rfl, rfl, rfl, rfl⟩ := h
      exact ⟨le_refl _, fun pl hpl => by cases hpl⟩
    · by_cases h12 : c2 < c1
      · simp only [h12, if_true, Except.ok.injEq, Prod.mk.injEq] at h
        obtain ⟨rfl, rfl, rfl, rfl, rfl⟩ := h
        rw [honorExtend_length]
        constructor
        · split <;> omega
        · intro pl _; split <;> omega
      · by_cases h21 : c1 < c2
        · simp only [h12, h21, if_false, if_true, Except.ok.injEq,
            Prod.mk.injEq] at h
          obtain ⟨rfl, rfl, rfl, rfl, rfl⟩ := h
          rw [honorExtend_length]
          constructor
          · split <;> omega
          · intro pl _; split <;> omega
        · simp only [h12, h21, if_false] at h
          rcases hdn1 : drawN shuf (min (q1.cards - 1) k) q1 s2 with _ | ⟨cs1, r1, s3⟩
          · simp only [hdn1] at h; exact absurd h (by simp)
          · simp only [hdn1] at h
            rcases hdn2 : drawN shuf (min (q2.cards - 1) k) q2 s3 with _ | ⟨cs2, r2, s4⟩
            · simp only [hdn2] at h; exact absurd h (by simp)
            · simp only [hdn2] at h
              have hm := ih _ _ _ _ _ _ _ _ _ h
              rw [List.length_append, List.length_append, honorExtend_length] at hm
              have hcc : c1 = c2 := by omega
              subst hcc
              simp only [ne_eq, not_true, false_and, if_false] at hm
              exact ⟨by omega, fun pl _ => by omega⟩

/-- A `Draw` round result leaves both players with zero cards; and unless both
players already had zero cards when the round began, the terminal round went
through at least one war escalation, leaving at least the tied pair in the
wager buffer. -/
theorem playRoundAux_draw_spec {σ : Type} (shuf : σ → List Nat → List Nat × σ)
    (Hlen : ∀ s l, ((shuf s l).1).length = l.length) (k ht : Nat) :
    ∀ (fuel : Nat) (p1 p2 : PlayerDeck) (w : List Nat) (s : σ)
      (p1' p2' : PlayerDeck) (w' : List Nat) (s' : σ),
      playRoundAux shuf k ht fuel p1 p2 w s =
        .ok (.GameResult .Draw, p1', p2', w', s') →
      p1'.cards = 0 ∧ p2'.cards = 0 ∧
        (0 < p1.cards + p2.cards → w.length + 2 ≤ w'.length) := by
  intro fuel
  induction fuel with
  | zero =>
    intro p1 p2 w s p1' p2' w' s' h
    simp [playRoundAux] at h
  | succ fuel ih =>
    intro p1 p2 w s p1' p2' w' s' h
    have hs1 := draw_spec shuf Hlen p1 s
    rcases hd1 : p1.draw shuf s with ⟨o1, q1, s1⟩
    rw [hd1] at hs1
    have hs2 := draw_spec shuf Hlen p2 s1
    rcases hd2 : p2.draw shuf s1 with ⟨o2, q2, s2⟩
    rw [hd2] at hs2
    rcases o1 with _ | c1 <;> rcases o2 with _ | c2 <;>
      simp only [playRoundAux, playRoundStep, hd1, hd2, Except.ok.injEq,
        Prod.mk.injEq] at h
    · obtain ⟨_, rfl, rfl, rfl, rfl⟩ := h
      have e1 : p1.cards = 0 := hs1.1.mp rfl
      have e2 : p2.cards = 0 := hs2.1.mp rfl
      exact ⟨hs1.2.1 rfl, hs2.2.1 rfl, fun hpos => absurd hpos (by omega)⟩
    · exact absurd h.1 (by simp)
    · exact absurd h.1 (by simp)
    · by_cases h12 : c2 < c1
      · simp only [h12, if_true, Except.ok.injEq, Prod.mk.injEq] at h
        exact absurd h.1 (by simp)
      · by_cases h21 : c1 < c2
        · simp only [h12, h21, if_false, if_true, Except.ok.injEq,
            Prod.mk.injEq] at h
          exact absurd h.1 (by simp)
        · simp only [h12, h21, if_false] at h
          rcases hdn1 : drawN shuf (min (q1.cards - 1) k) q1 s2 with _ | ⟨cs1, r1, s3⟩
          · simp only [hdn1] at h; exact absurd h (by simp)
          · simp only [hdn1] at h
            rcases hdn2 : drawN shuf (min (q2.cards - 1) k) q2 s3 with _ | ⟨cs2, r2, s4⟩
            · simp only [hdn2] at h; exact absurd h (by simp)
            · simp only [hdn2] at h
              have hz := ih _ _ _ _ _ _ _ _ h
              have hm := (playRoundAux_work_len shuf k ht fuel _ _ _ _ _ _ _ _ _ h).1
              rw [List.length_append, List.length_append, honorExtend_length] at hm
              have hcc : c1 = c2 := by omega
              subst hcc
              simp only [ne_eq, not_true, false_and, if_false] at hm
              exact ⟨hz.1, hz.2.1, fun _ => by omega⟩

/-- At a `Player1`/`Player2` terminal round result the losing player has zero
cards. -/
theorem playRoundAux_term_loser {σ : Type} (shuf : σ → List Nat → List Nat × σ)
    (Hlen : ∀ s l, ((shuf s l).1).length = l.length) (k ht : Nat) :
    ∀ (fuel : Nat) (p1 p2 : PlayerDeck) (w : List Nat) (s : σ)
      (r : RoundResult) (p1' p2' : PlayerDeck) (w' : List Nat) (s' : σ),
      playRoundAux shuf k ht fuel p1 p2 w s = .ok (r, p1', p2', w', s') →
      (r = .GameResult .Player1 → p2'.cards = 0) ∧
        (r = .GameResult .Player2 → p1'.cards = 0) := by
  intro fuel
  induction fuel with
  | zero =>
    intro p1 p2 w s r p1' p2' w' s' h
    simp [playRoundAux] at h
  | succ fuel ih =>
    intro p1 p2 w s r p1' p2' w' s' h
    have hs1 := draw_spec shuf Hlen p1 s
    rcases hd1 : p1.draw shuf s with ⟨o1, q1, s1⟩
    rw [hd1] at hs1
    have hs2 := draw_spec shuf Hlen p2 s1
    rcases hd2 : p2.draw shuf s1 with ⟨o2, q2, s2⟩
    rw [hd2] at hs2
    rcases o1 with _ | c1 <;> rcases o2 with _ | c2 <;>
      simp only [playRoundAux, playRoundStep, hd1, hd2, Except.ok.injEq,
        Prod.mk.injEq] at h
    · obtain ⟨rfl, rfl, rfl, rfl, rfl⟩ := h
      exact ⟨fun hr => (by cases hr), fun hr => (by cases hr)⟩
    · obtain ⟨rfl, rfl, rfl, rfl, rfl⟩ := h
      exact ⟨fun hr => (by cases hr), fun _ => hs1.2.1 rfl⟩
    · obtain ⟨rfl, rfl, rfl, rfl, rfl⟩ := h
      exact ⟨fun _ => hs2.2.1 rfl, fun hr => by cases hr⟩
    · by_cases h12 : c2 < c1
      · simp only [h12, if_true, Except.ok.injEq, Prod.mk.injEq] at h
        obtain ⟨rfl, rfl, rfl, rfl, rfl⟩ := h
        exact ⟨fun hr => (by cases hr), fun hr => (by cases hr)⟩
      · by_cases h21 : c1 < c2
        · simp only [h12, h21, if_false, if_true, Except.ok.injEq,
            Prod.mk.injEq] at h
          obtain ⟨rfl, rfl, rfl, rfl, rfl⟩ := h
          exact ⟨fun hr => (by cases hr), fun hr => (by cases hr)⟩
        · simp only [h12, h21, if_false] at h
          rcases hdn1 : drawN shuf (min (q1.cards - 1) k) q1 s2 with _ | ⟨cs1, r1, s3⟩
          · simp only [hdn1] at h; exact absurd h (by simp)
          · simp only [hdn1] at h
            rcases hdn2 : drawN shuf (min (q2.cards - 1) k) q2 s3 with _ | ⟨cs2, r2, s4⟩
            · simp only [hdn2] at h; exact absurd h (by simp)
            · simp only [hdn2] at h
              exact ih _ _ _ _ _ _ _ _ _ h

/-- Conservation for the plain round resolution at `honor_threshold = 0`:
cards in hand plus the wager buffer (plus the one silently dropped terminal
face-off card) are preserved by a whole round. -/
theorem playRoundAux_conserve_ht0 {σ : Type} (shuf : σ → List Nat → List Nat × σ)
    (Hlen : ∀ s l, ((shuf s l).1).length = l.length) (k : Nat)
    (fuel : Nat) (p1 p2 : PlayerDeck) (w : List Nat) (s : σ)
    (r : RoundResult) (p1' p2' : PlayerDeck) (w' : List Nat) (s' : σ)
    (h : playRoundAux shuf k 0 fuel p1 p2 w s = .ok (r, p1', p2', w', s')) :
    p1'.cards + p2'.cards + w'.length + termDrop r =
      p1.cards + p2.cards + w.length := by
  have he := playRoundAuxC_erase shuf k 0 fuel p1 p2 w s 0
  rcases hC : playRoundAuxC shuf k 0 fuel p1 p2 w s 0 with e | ⟨r₀, q1, q2, w₀, s₀, hc'⟩
  · rw [hC, h] at he
    simp [eraseC] at he
  · rw [hC, h] at he
    simp only [eraseC, Except.ok.injEq, Prod.mk.injEq] at he
    obtain ⟨rfl, rfl, rfl, rfl, rfl⟩ := he
    have hhc : hc' = 0 := playRoundAuxC_hc_ht0 shuf k fuel p1 p2 w s 0 _ _ _ _ _ _ hC
    have hcons := playRoundAuxC_conserve shuf Hlen k 0 fuel p1 p2 w s 0 _ _ _ _ _ _ hC
    omega

/-! ## Game loop lemmas -/

/-- Unpack a successful `playRound` into the underlying loop run; the round
leaves the game parameters unchanged. -/
theorem playRound_elim {σ : Type} (shuf : σ → List Nat → List Nat × σ)
    (g : Game σ) (r : RoundResult) (g' : Game σ)
    (h : playRound shuf g = .ok (r, g')) :
    playRoundAux shuf g.params.k g.params.honor_threshold
        (g.player1.cards + g.player2.cards + 1) g.player1 g.player2 [] g.rng =
      .ok (r, g'.player1, g'.player2, g'.work, g'.rng) ∧
      g'.params = g.params := by
  rcases hA : playRoundAux shuf g.params.k g.params.honor_threshold
      (g.player1.cards + g.player2.cards + 1) g.player1 g.player2 [] g.rng with
    e | ⟨r₀, p1', p2', w', s'⟩
  · simp only [playRound, hA] at h
    exact absurd h (by simp)
  · simp only [playRound, hA, Except.ok.injEq, Prod.mk.injEq] at h
    obtain ⟨rfl, rfl⟩ := h
    exact ⟨rfl, rfl⟩

/-- A length-preserving shuffle makes `playRound` total: it always returns a
round result. -/
theorem playRound_ok {σ : Type} (shuf : σ → List Nat → List Nat × σ)
    (Hlen : ∀ s l, ((shuf s l).1).length = l.length) (g : Game σ) :
    ∃ r g', playRound shuf g = .ok (r, g') := by
  obtain ⟨⟨r, p1', p2', w', s'⟩, hA⟩ :=
    playRoundAux_ok shuf Hlen g.params.k g.params.honor_threshold
      (g.player1.cards + g.player2.cards + 1) g.player1 g.player2 [] g.rng
      (by omega)
  refine ⟨r, ⟨g.params, s', p1', p2', w'⟩, ?_⟩
  simp only [playRound, hA]

/-- The returned turn count strictly exceeds the counter the loop started
from; in particular `play` (starting from 0) returns a count of at least 1. -/
theorem playAux_turn_lt {σ : Type} (shuf : σ → List Nat → List Nat × σ) :
    ∀ (fuel : Nat) (g : Game σ) (turn : Nat) (r : GameResult) (t : Nat)
      (g' : Game σ),
      playAux shuf fuel g turn = .ok (some ((r, t), g')) → turn < t := by
  intro fuel
  induction fuel with
  | zero =>
    intro g turn r t g' h
    simp [playAux] at h
  | succ fuel ih =>
    intro g turn r t g' h
    rcases hr : playRound shuf g with e | ⟨rr, g₁⟩
    · simp only [playAux, hr] at h
      exact absurd h (by simp)
    · rcases rr with r₀ | pl
      · simp only [playAux, hr, Except.ok.injEq, Option.some.injEq,
          Prod.mk.injEq] at h
        omega
      · rcases pl with _ | _ <;> simp only [playAux, hr] at h
        · exact Nat.lt_of_succ_lt (ih _ _ _ _ _ h)
        · exact Nat.lt_of_succ_lt (ih _ _ _ _ _ h)

/-- End-of-game card accounting when the honor rule is disabled
(`honor_threshold = 0`): the loser ends with zero cards, and the winner ends
with the whole original total minus the terminal round's wager buffer and the
one face-off card silently dropped at the terminal draw; on a `Draw` both
players end with zero cards and the terminal buffer holds the whole total. -/
theorem playAux_end_ht0 {σ : Type} (shuf : σ → List Nat → List Nat × σ)
    (Hlen : ∀ s l, ((shuf s l).1).length = l.length) :
    ∀ (fuel : Nat) (g : Game σ) (turn : Nat) (r : GameResult) (t : Nat)
      (g' : Game σ),
      g.params.honor_threshold = 0 →
      playAux shuf fuel g turn = .ok (some ((r, t), g')) →
      (r = .Player1 → g'.player2.cards = 0 ∧
        g'.player1.cards + g'.work.length + 1 =
          g.player1.cards + g.player2.cards) ∧
      (r = .Player2 → g'.player1.cards = 0 ∧
        g'.player2.cards + g'.work.length + 1 =
          g.player1.cards + g.player2.cards) ∧
      (r = .Draw → g'.player1.cards = 0 ∧ g'.player2.cards = 0 ∧
        g'.work.length = g.player1.cards + g.player2.cards) := by
  intro fuel
  induction fuel with
  | zero =>
    intro g turn r t g' hht h
    simp [playAux] at h
  | succ fuel ih =>
    intro g turn r t g' hht h
    rcases hr : playRound shuf g with e | ⟨rr, g₁⟩
    · simp only [playAux, hr] at h
      exact absurd h (by simp)
    · obtain ⟨hA, hparams⟩ := playRound_elim shuf g rr g₁ hr
      rw [hht] at hA
      rcases rr with r₀ | pl
      · simp only [playAux, hr, Except.ok.injEq, Option.some.injEq,
          Prod.mk.injEq] at h
        obtain ⟨⟨rfl, rfl⟩, rfl⟩ := h
        have hcons := playRoundAux_conserve_ht0 shuf Hlen g.params.k
          _ _ _ _ _ _ _ _ _ _ hA
        have hlose := playRoundAux_term_loser shuf Hlen g.params.k 0
          _ _ _ _ _ _ _ _ _ _ hA
        refine ⟨?_, ?_, ?_⟩
        · rintro rfl
          have h2 : g₁.player2.cards = 0 := hlose.1 rfl
          simp only [termDrop, List.length_nil] at hcons
          exact ⟨h2, by omega⟩
        · rintro rfl
          have h1 : g₁.player1.cards = 0 := hlose.2 rfl
          simp only [termDrop, List.length_nil] at hcons
          exact ⟨h1, by omega⟩
        · rintro rfl
          have hdraw := playRoundAux_draw_spec shuf Hlen g.params.k 0
            _ _ _ _ _ _ _ _ _ hA
          simp only [termDrop, List.length_nil] at hcons
          exact ⟨hdraw.1, hdraw.2.1, by omega⟩
      · have hcons := playRoundAux_conserve_ht0 shuf Hlen g.params.k
          _ _ _ _ _ _ _ _ _ _ hA
        simp only [termDrop, List.length_nil] at hcons
        rcases pl with _ | _
        · simp only [playAux, hr] at h
          have e1 : ({ g₁ with player1 := g₁.player1.win_loot g₁.work } :
              Game σ).player1.cards = g₁.player1.cards + g₁.work.length :=
            win_loot_cards _ _
          have e2 : ({ g₁ with player1 := g₁.player1.win_loot g₁.work } :
              Game σ).player2.cards = g₁.player2.cards := rfl
          have hih := ih _ (turn + 1) r t g'
            (by simpa [hparams] using hht) h
          simp only [e1, e2] at hih
          refine ⟨fun hr₀ => ⟨(hih.1 hr₀).1, ?_⟩,
            fun hr₀ => ⟨(hih.2.1 hr₀).1, ?_⟩,
            fun hr₀ => ⟨(hih.2.2 hr₀).1, (hih.2.2 hr₀).2.1, ?_⟩⟩
          · have := (hih.1 hr₀).2; omega
          · have := (hih.2.1 hr₀).2; omega
          · have := (hih.2.2 hr₀).2.2; omega
        · simp only [playAux, hr] at h
          have e1 : ({ g₁ with player2 := g₁.player2.win_loot g₁.work } :
              Game σ).player2.cards = g₁.player2.cards + g₁.work.length :=
            win_loot_cards _ _
          have e2 : ({ g₁ with player2 := g₁.player2.win_loot g₁.work } :
              Game σ).player1.cards = g₁.player1.cards := rfl
          have hih := ih _ (turn + 1) r t g'
            (by simpa [hparams] using hht) h
          simp only [e1, e2] at hih
          refine ⟨fun hr₀ => ⟨(hih.1 hr₀).1, ?_⟩,
            fun hr₀ => ⟨(hih.2.1 hr₀).1, ?_⟩,
            fun hr₀ => ⟨(hih.2.2 hr₀).1, (hih.2.2 hr₀).2.1, ?_⟩⟩
          · have := (hih.1 hr₀).2; omega
          · have := (hih.2.1 hr₀).2; omega
          · have := (hih.2.2 hr₀).2.2; omega

/-- A game that ends in a `Draw` leaves both players with zero cards; and if
the game did not start with both players already empty, the terminal round's
wager buffer holds at least the tied pair of a war escalation. -/
theorem playAux_draw_final {σ : Type} (shuf : σ → List Nat → List Nat × σ)
    (Hlen : ∀ s l, ((shuf s l).1).length = l.length) :
    ∀ (fuel : Nat) (g : Game σ) (turn : Nat) (t : Nat) (g' : Game σ),
      playAux shuf fuel g turn = .ok (some ((GameResult.Draw, t), g')) →
      g'.player1.cards = 0 ∧ g'.player2.cards = 0 ∧
        (0 < g.player1.cards + g.player2.cards → 2 ≤ g'.work.length) := by
  intro fuel
  induction fuel with
  | zero =>
    intro g turn t g' h
    simp [playAux] at h
  | succ fuel ih =>
    intro g turn t g' h
    rcases hr : playRound shuf g with e | ⟨rr, g₁⟩
    · simp only [playAux, hr] at h
      exact absurd h (by simp)
    · obtain ⟨hA, hparams⟩ := playRound_elim shuf g rr g₁ hr
      rcases rr with r₀ | pl
      · simp only [playAux, hr, Except.ok.injEq, Option.some.injEq,
          Prod.mk.injEq] at h
        obtain ⟨⟨rfl, rfl⟩, rfl⟩ := h
        have hdraw := playRoundAux_draw_spec shuf Hlen g.params.k
          g.params.honor_threshold _ _ _ _ _ _ _ _ _ hA
        exact ⟨hdraw.1, hdraw.2.1,
          fun hpos => by simpa using hdraw.2.2 hpos⟩
      · have hwl := playRoundAux_work_len shuf g.params.k
          g.params.honor_threshold _ _ _ _ _ _ _ _ _ _ hA
        rcases pl with _ | _
        · simp only [playAux, hr] at h
          have hih := ih _ (turn + 1) t g' h
          refine ⟨hih.1, hih.2.1, fun _ => ?_⟩
          refine hih.2.2 ?_
          have hw1 : 1 ≤ g₁.work.length := by
            simpa using hwl.2 Player.Player1 rfl
          have e1 : ({ g₁ with player1 := g₁.player1.win_loot g₁.work } :
              Game σ).player1.cards = g₁.player1.cards + g₁.work.length :=
            win_loot_cards _ _
          simp only [e1]
          omega
        · simp only [playAux, hr] at h
          have hih := ih _ (turn + 1) t g' h
          refine ⟨hih.1, hih.2.1, fun _ => ?_⟩
          refine hih.2.2 ?_
          have hw1 : 1 ≤ g₁.work.length := by
            simpa using hwl.2 Player.Player2 rfl
          have e1 : ({ g₁ with player2 := g₁.player2.win_loot g₁.work } :
              Game σ).player2.cards = g₁.player2.cards + g₁.work.length :=
            win_loot_cards _ _
          simp only [e1]
          omega

/-! ## Claims -/

/-- **C1.** In every face-off comparison inside `play_round` where both
players draw `card1` and `card2`: if the cards differ and their absolute
difference is at most `honor_threshold`, exactly the higher card is appended
to the wager buffer and the returned decks are exactly the post-draw decks, so
the lower card reaches neither deck, discard, nor buffer — it leaves the game;
otherwise (difference above the threshold) both cards are appended; and equal
cards never trigger honor removal (the buffer receives both copies). -/
theorem C1_honor_faceoff {σ : Type} (shuf : σ → List Nat → List Nat × σ)
    (k ht fuel : Nat) (p1 p2 q1 q2 : PlayerDeck) (w : List Nat)
    (s s1 s2 : σ) (c1 c2 : Nat)
    (hd1 : p1.draw shuf s = (some c1, q1, s1))
    (hd2 : p2.draw shuf s1 = (some c2, q2, s2)) :
    (c2 < c1 → abs_diff c1 c2 ≤ ht →
      playRoundAux shuf k ht (fuel + 1) p1 p2 w s =
        .ok (.RoundWin .Player1, q1, q2, w ++ [c1], s2)) ∧
    (c1 < c2 → abs_diff c1 c2 ≤ ht →
      playRoundAux shuf k ht (fuel + 1) p1 p2 w s =
        .ok (.RoundWin .Player2, q1, q2, w ++ [c2], s2)) ∧
    (c2 < c1 → ¬ abs_diff c1 c2 ≤ ht →
      playRoundAux shuf k ht (fuel + 1) p1 p2 w s =
        .ok (.RoundWin .Player1, q1, q2, w ++ [c1, c2], s2)) ∧
    (c1 < c2 → ¬ abs_diff c1 c2 ≤ ht →
      playRoundAux shuf k ht (fuel + 1) p1 p2 w s =
        .ok (.RoundWin .Player2, q1, q2, w ++ [c1, c2], s2)) ∧
    honorExtend ht w c2 c2 = w ++ [c2, c2] := by
  refine ⟨?_, ?_, ?_, ?_, by simp [honorExtend]⟩
  · intro hlt hle
    have hE : honorExtend ht w c1 c2 = w ++ [c1] := by
      rw [honorExtend, if_pos ⟨by omega, hle⟩, max_eq_left (by omega)]
    simp only [playRoundAux, playRoundStep, hd1, hd2, hE, hlt, if_true]
  · intro hlt hle
    have hE : honorExtend ht w c1 c2 = w ++ [c2] := by
      rw [honorExtend, if_pos ⟨by omega, hle⟩, max_eq_right (by omega)]
    have hnot : ¬ c2 < c1 := by omega
    simp only [playRoundAux, playRoundStep, hd1, hd2, hE, hnot, hlt,
      if_false, if_true]
  · intro hlt hle
    have hE : honorExtend ht w c1 c2 = w ++ [c1, c2] := by
      rw [honorExtend, if_neg]
      rintro ⟨-, h⟩
      exact hle h
    simp only [playRoundAux, playRoundStep, hd1, hd2, hE, hlt, if_true]
  · intro hlt hle
    have hE : honorExtend ht w c1 c2 = w ++ [c1, c2] := by
      rw [honorExtend, if_neg]
      rintro ⟨-, h⟩
      exact hle h
    have hnot : ¬ c2 < c1 := by omega
    simp only [playRoundAux, playRoundStep, hd1, hd2, hE, hnot, hlt,
      if_false, if_true]

theorem C1_honor_faceoff_witness :
    playRoundAux idShuf 3 2 1 ⟨[9], []⟩ ⟨[8], []⟩ [] () =
      .ok (.RoundWin .Player1, ⟨[], []⟩, ⟨[], []⟩, [9], ()) :=
  (C1_honor_faceoff idShuf 3 2 0 ⟨[9], []⟩ ⟨[8], []⟩ ⟨[], []⟩ ⟨[], []⟩ []
    () () () 9 8 rfl rfl).1 (by decide) (by decide)

/-- **C2.** In every war escalation (tied face-off) inside `play_round`, each
player independently wagers exactly `min (cards - 1) k` additional cards into
the wager buffer, with `cards - 1` computed by saturating subtraction, so a
player left with zero or one cards wagers zero; the loop then continues on the
post-escalation decks with the buffer extended by the two tied cards and both
wager lists (whose lengths need not be equal). -/
theorem C2_war_wager {σ : Type} (shuf : σ → List Nat → List Nat × σ)
    (Hlen : ∀ s l, ((shuf s l).1).length = l.length)
    (k ht fuel : Nat) (p1 p2 q1 q2 : PlayerDeck) (w : List Nat)
    (s s1 s2 : σ) (c : Nat)
    (hd1 : p1.draw shuf s = (some c, q1, s1))
    (hd2 : p2.draw shuf s1 = (some c, q2, s2)) :
    ∃ cs1 r1 s3 cs2 r2 s4,
      drawN shuf (min (q1.cards - 1) k) q1 s2 = some (cs1, r1, s3) ∧
      cs1.length = min (q1.cards - 1) k ∧
      drawN shuf (min (q2.cards - 1) k) q2 s3 = some (cs2, r2, s4) ∧
      cs2.length = min (q2.cards - 1) k ∧
      (q1.cards ≤ 1 → cs1 = []) ∧
      (q2.cards ≤ 1 → cs2 = []) ∧
      playRoundAux shuf k ht (fuel + 1) p1 p2 w s =
        playRoundAux shuf k ht fuel r1 r2 (((w ++ [c, c]) ++ cs1) ++ cs2) s4 := by
  obtain ⟨cs1, r1, s3, hdn1, hl1, hc1⟩ :=
    drawN_spec shuf Hlen (min (q1.cards - 1) k) q1 s2
      (le_trans (Nat.min_le_left _ _) (Nat.sub_le _ _))
  obtain ⟨cs2, r2, s4, hdn2, hl2, hc2⟩ :=
    drawN_spec shuf Hlen (min (q2.cards - 1) k) q2 s3
      (le_trans (Nat.min_le_left _ _) (Nat.sub_le _ _))
  refine ⟨cs1, r1, s3, cs2, r2, s4, hdn1, hl1, hdn2, hl2, ?_, ?_, ?_⟩
  · intro h
    have : cs1.length = 0 := by rw [hl1]; omega
    exact List.eq_nil_of_length_eq_zero this
  · intro h
    have : cs2.length = 0 := by rw [hl2]; omega
    exact List.eq_nil_of_length_eq_zero this
  · have hE : honorExtend ht w c c = w ++ [c, c] := by simp [honorExtend]
    have hnot : ¬ c < c := by omega
    simp only [playRoundAux, playRoundStep, hd1, hd2, hE, hnot, if_false,
      hdn1, hdn2]

theorem C2_war_wager_witness :
    ∃ cs1 r1 s3 cs2 r2 s4,
      drawN idShuf 0 (⟨[], []⟩ : PlayerDeck) () = some (cs1, r1, s3) ∧
      cs1.length = 0 ∧
      drawN idShuf 0 (⟨[], []⟩ : PlayerDeck) s3 = some (cs2, r2, s4) ∧
      cs2.length = 0 ∧
      ((⟨[], []⟩ : PlayerDeck).cards ≤ 1 → cs1 = []) ∧
      ((⟨[], []⟩ : PlayerDeck).cards ≤ 1 → cs2 = []) ∧
      playRoundAux idShuf 3 0 3 ⟨[5], []⟩ ⟨[5], []⟩ [] () =
        playRoundAux idShuf 3 0 2 r1 r2 ((([] ++ [5, 5]) ++ cs1) ++ cs2) s4 :=
  C2_war_wager idShuf (fun _ _ => rfl) 3 0 2 ⟨[5], []⟩ ⟨[5], []⟩
    ⟨[], []⟩ ⟨[], []⟩ [] () () () 5 rfl rfl

/-- **C3.** For every game state and any fuel, the war-escalation draws of
`play_round` all succeed: the failure branch of the unwrapped draw (the
`drawFail` abort, modelling the `.unwrap()` panic) is unreachable, because the
cap `min (cards - 1) k` never exceeds the player's card count. -/
theorem C3_escalation_draws_succeed {σ : Type} (shuf : σ → List Nat → List Nat × σ)
    (Hlen : ∀ s l, ((shuf s l).1).length = l.length)
    (k ht fuel : Nat) (p1 p2 : PlayerDeck) (w : List Nat) (s : σ) :
    playRoundAux shuf k ht fuel p1 p2 w s ≠ .error .drawFail :=
  playRoundAux_ne_drawFail shuf Hlen k ht fuel p1 p2 w s

theorem C3_escalation_draws_succeed_witness :
    playRoundAux idShuf 3 0 3 ⟨[5], []⟩ ⟨[5], []⟩ [] () ≠ .error .drawFail :=
  C3_escalation_draws_succeed idShuf (fun _ _ => rfl) 3 0 3 ⟨[5], []⟩
    ⟨[5], []⟩ [] ()

/-- **C4.** At a face-off of `play_round`: a player has zero total cards
exactly when deck and discard are both empty; if both players are out of
cards the round result is the terminal game result `Draw`; if only player 1
is out, player 2 wins the game; if only player 2 is out, player 1 wins; the
successful drawer's card is consumed by the terminal face-off. -/
theorem C4_terminal_faceoff {σ : Type} (shuf : σ → List Nat → List Nat × σ)
    (Hlen : ∀ s l, ((shuf s l).1).length = l.length)
    (k ht fuel : Nat) (p1 p2 : PlayerDeck) (w : List Nat) (s : σ) :
    ((p1.deck = [] ∧ p1.discard = []) ↔ p1.cards = 0) ∧
    (p1.cards = 0 → p2.cards = 0 →
      ∃ q1 q2 s', playRoundAux shuf k ht (fuel + 1) p1 p2 w s =
        .ok (.GameResult .Draw, q1, q2, w, s') ∧ q1.cards = 0 ∧ q2.cards = 0) ∧
    (p1.cards = 0 → 0 < p2.cards →
      ∃ q1 q2 s', playRoundAux shuf k ht (fuel + 1) p1 p2 w s =
        .ok (.GameResult .Player2, q1, q2, w, s') ∧
        q1.cards = 0 ∧ q2.cards + 1 = p2.cards) ∧
    (0 < p1.cards → p2.cards = 0 →
      ∃ q1 q2 s', playRoundAux shuf k ht (fuel + 1) p1 p2 w s =
        .ok (.GameResult .Player1, q1, q2, w, s') ∧
        q1.cards + 1 = p1.cards ∧ q2.cards = 0) := by
  refine ⟨?_, ?_, ?_, ?_⟩
  · obtain ⟨d, disc⟩ := p1
    simp only [PlayerDeck.cards]
    constructor
    · rintro ⟨rfl, rfl⟩; rfl
    · intro h
      constructor
      · have : d.length = 0 := by omega
        exact List.eq_nil_of_length_eq_zero this
      · have : disc.length = 0 := by omega
        exact List.eq_nil_of_length_eq_zero this
  · intro h1 h2
    have hs1 := draw_spec shuf Hlen p1 s
    rcases hd1 : p1.draw shuf s with ⟨o1, q1, s1⟩
    rw [hd1] at hs1
    have ho1 : o1 = none := hs1.1.mpr h1
    subst ho1
    have hs2 := draw_spec shuf Hlen p2 s1
    rcases hd2 : p2.draw shuf s1 with ⟨o2, q2, s2⟩
    rw [hd2] at hs2
    have ho2 : o2 = none := hs2.1.mpr h2
    subst ho2
    refine ⟨q1, q2, s2, ?_, hs1.2.1 rfl, hs2.2.1 rfl⟩
    simp only [playRoundAux, playRoundStep, hd1, hd2]
  · intro h1 h2
    have hs1 := draw_spec shuf Hlen p1 s
    rcases hd1 : p1.draw shuf s with ⟨o1, q1, s1⟩
    rw [hd1] at hs1
    have ho1 : o1 = none := hs1.1.mpr h1
    subst ho1
    have hs2 := draw_spec shuf Hlen p2 s1
    rcases hd2 : p2.draw shuf s1 with ⟨o2, q2, s2⟩
    rw [hd2] at hs2
    rcases o2 with _ | c2
    · exact absurd (hs2.1.mp rfl) (by omega)
    · refine ⟨q1, q2, s2, ?_, hs1.2.1 rfl, hs2.2.2.1 (by simp)⟩
      simp only [playRoundAux, playRoundStep, hd1, hd2]
  · intro h1 h2
    have hs1 := draw_spec shuf Hlen p1 s
    rcases hd1 : p1.draw shuf s with ⟨o1, q1, s1⟩
    rw [hd1] at hs1
    have hs2 := draw_spec shuf Hlen p2 s1
    rcases hd2 : p2.draw shuf s1 with ⟨o2, q2, s2⟩
    rw [hd2] at hs2
    have ho2 : o2 = none := hs2.1.mpr h2
    subst ho2
    rcases o1 with _ | c1
    · exact absurd (hs1.1.mp rfl) (by omega)
    · refine ⟨q1, q2, s2, ?_, hs1.2.2.1 (by simp), hs2.2.1 rfl⟩
      simp only [playRoundAux, playRoundStep, hd1, hd2]

theorem C4_terminal_faceoff_witness :
    ∃ q1 q2 s', playRoundAux idShuf 3 0 1 ⟨[], []⟩ ⟨[], [3, 4]⟩ [] () =
      .ok (.GameResult .Player2, q1, q2, [], s') ∧
      q1.cards = 0 ∧ q2.cards + 1 = (⟨[], [3, 4]⟩ : PlayerDeck).cards :=
  (C4_terminal_faceoff idShuf (fun _ _ => rfl) 3 0 0 ⟨[], []⟩ ⟨[], [3, 4]⟩
    [] ()).2.2.1 rfl (by decide)

/-- **C5.** Card accounting for a decisive round started with a cleared
buffer: the final hands plus the wager buffer plus one card per
honor-triggered comparison (the instrumented counter `hc'`) equal the initial
hands, so with `honor_threshold = 0` (where the counter is provably 0) the
combined total `cards₁ + cards₂` is unchanged by a decisive round including
its `win_loot` award; in general the total drops by exactly one per
honor-firing comparison; `win_loot` increases a player's total by exactly the
awarded cards and a draw never increases it; and the instrumentation is
faithful: erasing the counter yields the plain `play_round` loop. -/
theorem C5_conservation {σ : Type} (shuf : σ → List Nat → List Nat × σ)
    (Hlen : ∀ s l, ((shuf s l).1).length = l.length)
    (k ht fuel : Nat) (p1 p2 : PlayerDeck) (s : σ)
    (pl : Player) (p1' p2' : PlayerDeck) (w' : List Nat) (s' : σ) (hc' : Nat)
    (hrun : playRoundAuxC shuf k ht fuel p1 p2 [] s 0 =
      .ok (.RoundWin pl, p1', p2', w', s', hc')) :
    p1'.cards + p2'.cards + w'.length + hc' = p1.cards + p2.cards ∧
    (ht = 0 → hc' = 0) ∧
    (pl = .Player1 →
      (p1'.win_loot w').cards + p2'.cards + hc' = p1.cards + p2.cards) ∧
    (pl = .Player2 →
      p1'.cards + (p2'.win_loot w').cards + hc' = p1.cards + p2.cards) ∧
    (∀ (p : PlayerDeck) (cs : List Nat),
      (p.win_loot cs).cards = p.cards + cs.length) ∧
    (∀ (p : PlayerDeck) (s₀ : σ) (o : Option Nat) (q : PlayerDeck) (s₁ : σ),
      p.draw shuf s₀ = (o, q, s₁) → q.cards ≤ p.cards) ∧
    eraseC (playRoundAuxC shuf k ht fuel p1 p2 [] s 0) =
      playRoundAux shuf k ht fuel p1 p2 [] s := by
  have hcons := playRoundAuxC_conserve shuf Hlen k ht fuel p1 p2 [] s 0
    _ _ _ _ _ _ hrun
  simp only [termDrop, List.length_nil] at hcons
  refine ⟨by omega, ?_, ?_, ?_, win_loot_cards, ?_,
    playRoundAuxC_erase shuf k ht fuel p1 p2 [] s 0⟩
  · rintro rfl
    exact playRoundAuxC_hc_ht0 shuf k fuel p1 p2 [] s 0 _ _ _ _ _ _ hrun
  · intro _
    rw [win_loot_cards]
    omega
  · intro _
    rw [win_loot_cards]
    omega
  · intro p s₀ o q s₁ h
    have hs := draw_spec shuf Hlen p s₀
    rw [h] at hs
    rcases o with _ | c
    · have hz : q.cards = 0 := hs.2.1 rfl
      omega
    · have hq : q.cards + 1 = p.cards := hs.2.2.1 (by simp)
      omega

theorem C5_conservation_witness :
    (⟨[], []⟩ : PlayerDeck).cards + (⟨[], []⟩ : PlayerDeck).cards +
        [9].length + 1 =
      (⟨[], [9]⟩ : PlayerDeck).cards + (⟨[], [8]⟩ : PlayerDeck).cards :=
  (C5_conservation idShuf (fun _ _ => rfl) 3 2 3 ⟨[], [9]⟩ ⟨[], [8]⟩ ()
    .Player1 ⟨[], []⟩ ⟨[], []⟩ [9] () 1 rfl).1

/-- **C6.** The `draw` operation never fails with an error (it is a total
function into an `Option`): it yields `none` exactly when the player's total
card count is zero; a successful draw removes exactly one card from the
player's total; and when the draw pile is empty before the draw, the shuffled
discard pile becomes the new draw pile (its last element is returned as the
drawn card) and the discard pile becomes empty. -/
theorem C6_draw_contract {σ : Type} (shuf : σ → List Nat → List Nat × σ)
    (Hlen : ∀ s l, ((shuf s l).1).length = l.length)
    (p : PlayerDeck) (s : σ) (o : Option Nat) (q : PlayerDeck) (s' : σ)
    (h : p.draw shuf s = (o, q, s')) :
    (o = none ↔ p.cards = 0) ∧
    (o.isSome → q.cards + 1 = p.cards) ∧
    (p.deck = [] → q.discard = [] ∧
      q.deck = ((shuf s p.discard).1).dropLast ∧
      o = ((shuf s p.discard).1).getLast?) := by
  have hs := draw_spec shuf Hlen p s
  rw [h] at hs
  refine ⟨hs.1, hs.2.2.1, ?_⟩
  intro hd
  obtain ⟨d, disc⟩ := p
  simp only at hd
  subst hd
  rw [draw_deck_nil] at h
  rcases hL : (shuf s disc).1 with _ | ⟨y, ys⟩
  · rw [hL, drawPop_deck_nil] at h
    simp only [Prod.mk.injEq] at h
    obtain ⟨rfl, rfl, rfl⟩ := h
    exact ⟨rfl, rfl, rfl⟩
  · have hne : (y :: ys : List Nat) ≠ [] := by simp
    rw [hL, drawPop_deck_ne_nil _ _ hne] at h
    simp only [Prod.mk.injEq] at h
    obtain ⟨rfl, rfl, rfl⟩ := h
    exact ⟨rfl, rfl, (List.getLast?_eq_getLast _ hne).symm⟩

theorem C6_draw_contract_witness :
    ((some 7 = none) ↔ (⟨[], [4, 7]⟩ : PlayerDeck).cards = 0) ∧
    ((some 7).isSome → (⟨[4], []⟩ : PlayerDeck).cards + 1 =
      (⟨[], [4, 7]⟩ : PlayerDeck).cards) ∧
    ((⟨[], [4, 7]⟩ : PlayerDeck).deck = [] →
      (⟨[4], []⟩ : PlayerDeck).discard = [] ∧
      (⟨[4], []⟩ : PlayerDeck).deck = ((idShuf () [4, 7]).1).dropLast ∧
      some 7 = ((idShuf () [4, 7]).1).getLast?) :=
  C6_draw_contract idShuf (fun _ _ => rfl) ⟨[], [4, 7]⟩ () (some 7)
    ⟨[4], []⟩ () rfl

/-- **C7.** `play` repeatedly invokes round resolution with the turn counter
incremented at the top of each iteration: after a decisive round the entire
wager buffer is awarded to the round winner's discard pile (`win_loot`) and
the loop continues; on a terminal round the loop returns the `GameResult`
paired with the turn count; the count strictly exceeds the starting counter,
so `play` (which starts at 0) counts rounds from 1 with the terminal round
included. -/
theorem C7_play_loop {σ : Type} (shuf : σ → List Nat → List Nat × σ)
    (fuel turn : Nat) (g g' : Game σ) :
    (∀ r, playRound shuf g = .ok (.GameResult r, g') →
      playAux shuf (fuel + 1) g turn = .ok (some ((r, turn + 1), g'))) ∧
    (playRound shuf g = .ok (.RoundWin .Player1, g') →
      playAux shuf (fuel + 1) g turn =
        playAux shuf fuel { g' with player1 := g'.player1.win_loot g'.work }
          (turn + 1)) ∧
    (playRound shuf g = .ok (.RoundWin .Player2, g') →
      playAux shuf (fuel + 1) g turn =
        playAux shuf fuel { g' with player2 := g'.player2.win_loot g'.work }
          (turn + 1)) ∧
    (∀ r t g'', playAux shuf fuel g turn = .ok (some ((r, t), g'')) →
      turn < t) ∧
    play shuf fuel g = playAux shuf fuel g 0 := by
  refine ⟨?_, ?_, ?_,
    fun r t g'' h => playAux_turn_lt shuf fuel g turn r t g'' h, rfl⟩
  · intro r h
    simp only [playAux, h]
  · intro h
    simp only [playAux, h]
  · intro h
    simp only [playAux, h]

theorem C7_play_loop_witness :
    playAux idShuf 1 (⟨⟨3, 0⟩, (), ⟨[], [1]⟩, ⟨[], []⟩, []⟩ : Game Unit) 0 =
      .ok (some ((GameResult.Player1, 1),
        ⟨⟨3, 0⟩, (), ⟨[], []⟩, ⟨[], []⟩, []⟩)) :=
  (C7_play_loop idShuf 0 0 ⟨⟨3, 0⟩, (), ⟨[], [1]⟩, ⟨[], []⟩, []⟩
    ⟨⟨3, 0⟩, (), ⟨[], []⟩, ⟨[], []⟩, []⟩).1 .Player1 rfl

/-- **C8 (counterexample).** The claim "when `play` returns a non-Draw result
the winner's total equals the original combined deck size" is false: in the
game where player 1 has the single card `1` and player 2 has none, `play`
returns a `Player1` win after one round, yet the winner ends with 0 cards
(the terminal face-off consumed the drawn card) while the original combined
size is 1. -/
theorem C8_counterexample :
    play idShuf 1 (⟨⟨3, 0⟩, (), ⟨[], [1]⟩, ⟨[], []⟩, []⟩ : Game Unit) =
      .ok (some ((GameResult.Player1, 1),
        ⟨⟨3, 0⟩, (), ⟨[], []⟩, ⟨[], []⟩, []⟩)) ∧
    (⟨⟨3, 0⟩, (), ⟨[], [1]⟩, ⟨[], []⟩, []⟩ : Game Unit).player1.cards +
      (⟨⟨3, 0⟩, (), ⟨[], [1]⟩, ⟨[], []⟩, []⟩ : Game Unit).player2.cards = 1 ∧
    (⟨⟨3, 0⟩, (), ⟨[], []⟩, ⟨[], []⟩, []⟩ : Game Unit).player1.cards = 0 :=
  ⟨rfl, rfl, rfl⟩

/-- **C8 (amended).** With the honor rule disabled (`honor_threshold = 0`) the
combined total is conserved by every decisive round, and at game end the
losing player holds zero cards while the winner holds the original combined
total minus the terminal round's wager buffer and minus the one face-off card
consumed at the terminal draw; a `Draw` leaves both players at zero with the
whole total in the terminal buffer. -/
theorem C8_amended {σ : Type} (shuf : σ → List Nat → List Nat × σ)
    (Hlen : ∀ s l, ((shuf s l).1).length = l.length)
    (fuel : Nat) (g : Game σ) (r : GameResult) (t : Nat) (g' : Game σ)
    (hht : g.params.honor_threshold = 0)
    (h : play shuf fuel g = .ok (some ((r, t), g'))) :
    (r = .Player1 → g'.player2.cards = 0 ∧
      g'.player1.cards + g'.work.length + 1 =
        g.player1.cards + g.player2.cards) ∧
    (r = .Player2 → g'.player1.cards = 0 ∧
      g'.player2.cards + g'.work.length + 1 =
        g.player1.cards + g.player2.cards) ∧
    (r = .Draw → g'.player1.cards = 0 ∧ g'.player2.cards = 0 ∧
      g'.work.length = g.player1.cards + g.player2.cards) :=
  playAux_end_ht0 shuf Hlen fuel g 0 r t g' hht h

theorem C8_amended_witness :
    (⟨⟨3, 0⟩, (), ⟨[], []⟩, ⟨[], []⟩, []⟩ : Game Unit).player2.cards = 0 ∧
    (⟨⟨3, 0⟩, (), ⟨[], []⟩, ⟨[], []⟩, []⟩ : Game Unit).player1.cards +
        (⟨⟨3, 0⟩, (), ⟨[], []⟩, ⟨[], []⟩, []⟩ : Game Unit).work.length + 1 =
      (⟨⟨3, 0⟩, (), ⟨[], [1]⟩, ⟨[], []⟩, []⟩ : Game Unit).player1.cards +
        (⟨⟨3, 0⟩, (), ⟨[], [1]⟩, ⟨[], []⟩, []⟩ : Game Unit).player2.cards :=
  (C8_amended idShuf (fun _ _ => rfl) 1
    ⟨⟨3, 0⟩, (), ⟨[], [1]⟩, ⟨[], []⟩, []⟩ .Player1 1
    ⟨⟨3, 0⟩, (), ⟨[], []⟩, ⟨[], []⟩, []⟩ rfl rfl).1 rfl

/-- **C9 (counterexample).** The claim "a `Draw` can only happen when a war's
final comparison round also exhausts both sides" is false: when both initial
decks are empty, `play` returns `Draw` on the very first face-off of the
first round, with an empty wager buffer — no war escalation ever took place
(by the amended theorem any war escalation leaves at least the tied pair in
the buffer). -/
theorem C9_counterexample :
    play idShuf 1 (⟨⟨3, 0⟩, (), ⟨[], []⟩, ⟨[], []⟩, []⟩ : Game Unit) =
      .ok (some ((GameResult.Draw, 1),
        ⟨⟨3, 0⟩, (), ⟨[], []⟩, ⟨[], []⟩, []⟩)) ∧
    (⟨⟨3, 0⟩, (), ⟨[], []⟩, ⟨[], []⟩, ([] : List Nat)⟩ : Game Unit).work.length
      = 0 :=
  ⟨rfl, rfl⟩

/-- **C9 (amended).** Every `Draw` outcome of `play` leaves both players with
zero cards simultaneously; and provided the game did not start with both
players already empty, the terminal round contains at least one war
escalation, witnessed by the tied pair in the final wager buffer (length at
least 2). -/
theorem C9_amended {σ : Type} (shuf : σ → List Nat → List Nat × σ)
    (Hlen : ∀ s l, ((shuf s l).1).length = l.length)
    (fuel : Nat) (g : Game σ) (t : Nat) (g' : Game σ)
    (h : play shuf fuel g = .ok (some ((GameResult.Draw, t), g'))) :
    g'.player1.cards = 0 ∧ g'.player2.cards = 0 ∧
      (0 < g.player1.cards + g.player2.cards → 2 ≤ g'.work.length) :=
  playAux_draw_final shuf Hlen fuel g 0 t g' h

theorem C9_amended_witness :
    (⟨⟨3, 0⟩, (), ⟨[], []⟩, ⟨[], []⟩, [5, 5]⟩ : Game Unit).player1.cards = 0 ∧
    (⟨⟨3, 0⟩, (), ⟨[], []⟩, ⟨[], []⟩, [5, 5]⟩ : Game Unit).player2.cards = 0 ∧
    2 ≤ (⟨⟨3, 0⟩, (), ⟨[], []⟩, ⟨[], []⟩, [5, 5]⟩ : Game Unit).work.length :=
  ⟨(C9_amended idShuf (fun _ _ => rfl) 1
      ⟨⟨3, 0⟩, (), ⟨[], [5]⟩, ⟨[], [5]⟩, []⟩ 1
      ⟨⟨3, 0⟩, (), ⟨[], []⟩, ⟨[], []⟩, [5, 5]⟩ rfl).1,
   (C9_amended idShuf (fun _ _ => rfl) 1
      ⟨⟨3, 0⟩, (), ⟨[], [5]⟩, ⟨[], [5]⟩, []⟩ 1
      ⟨⟨3, 0⟩, (), ⟨[], []⟩, ⟨[], []⟩, [5, 5]⟩ rfl).2.1,
   (C9_amended idShuf (fun _ _ => rfl) 1
      ⟨⟨3, 0⟩, (), ⟨[], [5]⟩, ⟨[], [5]⟩, []⟩ 1
      ⟨⟨3, 0⟩, (), ⟨[], []⟩, ⟨[], []⟩, [5, 5]⟩ rfl).2.2 (by decide)⟩

/-- **C10.** `play_round` always terminates: the loop variant is the combined
card count, which strictly decreases (by at least two) at every war
iteration, so with any fuel exceeding `cards₁ + cards₂` the embedded loop
returns a result, and `playRound` (which supplies `cards₁ + cards₂ + 1`) is a
total function of the game state. -/
theorem C10_round_terminates {σ : Type} (shuf : σ → List Nat → List Nat × σ)
    (Hlen : ∀ s l, ((shuf s l).1).length = l.length) (g : Game σ) :
    (∃ r g', playRound shuf g = .ok (r, g')) ∧
    ∀ (fuel : Nat) (p1 p2 : PlayerDeck) (w : List Nat) (s : σ),
      p1.cards + p2.cards < fuel →
      ∃ out, playRoundAux shuf g.params.k g.params.honor_threshold
        fuel p1 p2 w s = .ok out :=
  ⟨playRound_ok shuf Hlen g,
   fun fuel p1 p2 w s hf =>
     playRoundAux_ok shuf Hlen g.params.k g.params.honor_threshold
       fuel p1 p2 w s hf⟩

theorem C10_round_terminates_witness :
    ∃ r g', playRound idShuf
      (⟨⟨3, 0⟩, (), ⟨[], [5]⟩, ⟨[], [5]⟩, []⟩ : Game Unit) = .ok (r, g') :=
  (C10_round_terminates idShuf (fun _ _ => rfl)
    ⟨⟨3, 0⟩, (), ⟨[], [5]⟩, ⟨[], [5]⟩, []⟩).1
